import Mathlib

/-!
Shallow embedding of `download_bac_exams.py` (Moroccan Baccalauréat exam
downloader).  Strings are modelled as `List Char`; Python byte strings are
modelled the same way (all signature bytes involved are ASCII).  The
filesystem is a list of destination paths, the network is an explicit
oracle function passed to the functions that perform requests.
-/

namespace BacExams

/-- ASCII alphanumeric test, the character class `[A-Za-z0-9]` used by
`sanitize_filename`'s regular expression. -/
def isAlnumAscii (c : Char) : Bool :=
  ('A' ≤ c && c ≤ 'Z') || ('a' ≤ c && c ≤ 'z') || ('0' ≤ c && c ≤ '9')

/-- Model of `str.lower()` restricted to ASCII letters (every keyword the
script compares against is pure ASCII, so this is the behaviour the script
exercises). -/
def lowerChar (c : Char) : Char :=
  if 'A' ≤ c && c ≤ 'Z' then Char.ofNat (c.toNat + 32) else c

/-- Lower-case an entire string (model of `str.lower()`). -/
def lowerStr (s : List Char) : List Char := s.map lowerChar

/-- Model of Python `needle in haystack` prefix step: does `sub` occur at the
head of `s`? -/
def headMatches : List Char → List Char → Bool
  | [], _ => true
  | _ :: _, [] => false
  | a :: as, b :: bs => a == b && headMatches as bs

/-- Model of Python substring containment `sub in s`. -/
def containsSub (sub s : List Char) : Bool :=
  match s with
  | [] => headMatches sub []
  | _ :: t => headMatches sub s || containsSub sub t

/-- Model of Python `s.endswith(suffix)`. -/
def endsWithStr (s suffix : List Char) : Bool :=
  headMatches suffix.reverse s.reverse

/-- The regular expression `EXAM_YEAR_RE = (20\d\d|19\d\d)` tried at one
position: the `20` branch first, then the `19` branch, as in the Python
alternation (source line 128). -/
def matchYearAt (s : List Char) : Option (List Char) :=
  match s with
  | a :: b :: c :: d :: _ =>
    if a == '2' && b == '0' && c.isDigit && d.isDigit then some [a, b, c, d]
    else if a == '1' && b == '9' && c.isDigit && d.isDigit then some [a, b, c, d]
    else none
  | _ => none

/-- `identify_year` (source lines 200-202): `EXAM_YEAR_RE.search(text)`, the
leftmost position at which the year pattern matches, scanning left to
right. -/
def identify_year : List Char → Option (List Char)
  | [] => none
  | c :: t =>
    match matchYearAt (c :: t) with
    | some y => some y
    | none => identify_year t

/-- `identify_asset_type` (source lines 213-219): lowercase the text, then
"corrig" wins, else "sujet" or "examen" give MainExam, else nothing. -/
def identify_asset_type (text : List Char) : Option (List Char) :=
  let lowered := lowerStr text
  if containsSub ("corrig".toList) lowered then some ("Correction".toList)
  else if containsSub ("sujet".toList) lowered || containsSub ("examen".toList) lowered then
    some ("MainExam".toList)
  else none

/-- `SESSION_KEYWORDS` (source lines 118-121): two keyword groups with their
session labels. -/
def SESSION_KEYWORDS : List (List (List Char) × List Char) :=
  [(["normale".toList, "normal".toList, "principale".toList, "main".toList,
     "regular".toList], "Normale".toList),
   (["rattrap".toList, "retake".toList, "extraordinaire".toList], "Rattrapage".toList)]

/-- `identify_session` (source lines 205-210): lowercase the text, return the
label of the first keyword group with some keyword occurring in it. -/
def identify_session (text : List Char) : Option (List Char) :=
  let lowered := lowerStr text
  match SESSION_KEYWORDS.find? (fun kw => kw.1.any (fun k => containsSub k lowered)) with
  | some kw => some kw.2
  | none => none

/-- Auxiliary length bound used for the termination of run-structured
recursions on strings. -/
theorem length_dropWhile_le (p : Char → Bool) (l : List Char) :
    (l.dropWhile p).length ≤ l.length := by
  induction l with
  | nil => simp
  | cons a t ih =>
    simp only [List.dropWhile_cons]
    split
    · exact ih.trans (Nat.le_succ _)
    · simp

/-- The substitution step of `re.sub(r"[^A-Za-z0-9]+", "_", part)` in
`sanitize_filename` (source line 225): each maximal run of non-alphanumeric
characters is replaced by a single underscore. -/
def collapseNonAlnum : List Char → List Char
  | [] => []
  | c :: t =>
    if isAlnumAscii c then
      (c :: t.takeWhile isAlnumAscii) ++ collapseNonAlnum (t.dropWhile isAlnumAscii)
    else
      '_' :: collapseNonAlnum (t.dropWhile (fun d => !isAlnumAscii d))
  termination_by l => l.length
  decreasing_by
  · exact Nat.lt_succ_of_le (length_dropWhile_le _ t)
  · exact Nat.lt_succ_of_le (length_dropWhile_le _ t)

/-- Remove leading underscores (the left half of `.strip("_")`). -/
def dropU (s : List Char) : List Char := s.dropWhile (fun c => c == '_')

/-- Remove trailing underscores (the right half of `.strip("_")`). -/
def rdropU (s : List Char) : List Char :=
  (s.reverse.dropWhile (fun c => c == '_')).reverse

/-- Python `s.strip("_")` : remove leading and trailing underscores
(source line 225, the `.strip("_")` call). -/
def stripUnd (s : List Char) : List Char := rdropU (dropU s)

/-- One part's cleaning in `sanitize_filename` (source line 225):
`re.sub(r"[^A-Za-z0-9]+", "_", part).strip("_")`. -/
def cleanPart (part : List Char) : List Char :=
  stripUnd (collapseNonAlnum part)

/-- Python `"_".join(parts)`: concatenate with single underscores between
consecutive elements. -/
def joinUnd : List (List Char) → List Char
  | [] => []
  | [x] => x
  | x :: y :: rest => x ++ '_' :: joinUnd (y :: rest)

/-- `sanitize_filename` (source lines 222-229) with the default suffix
`".pdf"` used by every call site: keep nonempty cleaned parts, join them
with underscores, fall back to `"document"`, then append the suffix. -/
def sanitize_filename (parts : List (List Char)) : List Char :=
  let safe_parts := (parts.map cleanPart).filter (fun p => !p.isEmpty)
  let combined := if safe_parts = [] then "document".toList
                  else joinUnd safe_parts
  combined ++ ".pdf".toList

/-- The maximal alphabetic/numeric runs of a string: the spec-side notion
"the parts' alphanumeric runs" used to characterise `sanitize_filename`. -/
def alnumRuns : List Char → List (List Char)
  | [] => []
  | c :: t =>
    if isAlnumAscii c then
      (c :: t.takeWhile isAlnumAscii) :: alnumRuns (t.dropWhile isAlnumAscii)
    else
      alnumRuns (t.dropWhile (fun d => !isAlnumAscii d))
  termination_by l => l.length
  decreasing_by
  · exact Nat.lt_succ_of_le (length_dropWhile_le _ t)
  · exact Nat.lt_succ_of_le (length_dropWhile_le _ t)

/-- Model of `urlparse(url).netloc` for the URLs handled here: the text
between the first `"//"` and the next `/`, `?` or `#` (empty when the URL
has no authority component). -/
def afterDoubleSlash : List Char → Option (List Char)
  | [] => none
  | '/' :: '/' :: t => some t
  | _ :: t => afterDoubleSlash t

/-- Authority (host) component of a URL, see `afterDoubleSlash`. -/
def netloc (url : List Char) : List Char :=
  match afterDoubleSlash url with
  | some t => t.takeWhile (fun c => c != '/' && c != '?' && c != '#')
  | none => []

/-- `PREFERRED_DOMAINS` (source lines 78-83). -/
def PREFERRED_DOMAINS : List (List Char) :=
  ["telmidtice.com".toList, "men.gov.ma".toList,
   "drive.google.com".toList, "docs.google.com".toList]

/-- The enumerate-and-return loop of `host_rank` (source lines 252-255):
the index of the first domain of the list the host ends with, or the list
length when the host ends with none of them. -/
def rankIn (host : List Char) : List (List Char) → Nat
  | [] => 0
  | domain :: rest => if endsWithStr host domain then 0 else 1 + rankIn host rest

/-- `host_rank` inside `prefer_asset` (source lines 251-255): the index of
the first preferred domain the host ends with, or `len(PREFERRED_DOMAINS)`
when the host ends with none of them. -/
def host_rank (host : List Char) : Nat :=
  rankIn host PREFERRED_DOMAINS

/-- `ExamAsset` (source lines 131-141).  `local_path` is the flattened path
string; `Path` arithmetic is modelled as string concatenation with `/`. -/
structure ExamAsset where
  subject_code : List Char
  subject_label : List Char
  year : Option (List Char)
  session : Option (List Char)
  asset_type : List Char
  source_title : List Char
  source_page : List Char
  pdf_url : List Char
  local_path : List Char
deriving DecidableEq, Repr

instance : Inhabited ExamAsset :=
  ⟨{ subject_code := [], subject_label := [], year := none, session := none,
     asset_type := [], source_title := [], source_page := [], pdf_url := [],
     local_path := [] }⟩

/-- `prefer_asset` (source lines 247-257): compare the host ranks of the two
assets' PDF URLs (hosts lowercased as by `.netloc.lower()`). -/
def prefer_asset (candidate current : ExamAsset) : Bool :=
  host_rank (lowerStr (netloc candidate.pdf_url)) <
    host_rank (lowerStr (netloc current.pdf_url))

/-- Model of Python `int(s)` on the year strings occurring in this program
(all-digit decimal strings); any other shape raises `ValueError` in the
source, modelled as `none`. -/
def toIntPy (s : List Char) : Option Nat :=
  if !s.isEmpty && s.all (fun c => c.isDigit) then
    some (s.foldl (fun acc c => acc * 10 + (c.toNat - '0'.toNat)) 0)
  else none

/-- `TARGET_SESSIONS` (source line 72). -/
def TARGET_SESSIONS : List (List Char) := ["Normale".toList, "Rattrapage".toList]

/-- `TARGET_ASSET_TYPES` (source line 73). -/
def TARGET_ASSET_TYPES : List (List Char) := ["MainExam".toList, "Correction".toList]

/-- `SESSION_LABELS.get(s, s)` (source line 74): the identity dictionary
over the two session names, with the key itself as default. -/
def SESSION_LABELS_get (s : List Char) : List Char :=
  if s = "Normale".toList then "Normale".toList
  else if s = "Rattrapage".toList then "Rattrapage".toList
  else s

/-- Canonical keys: (subject code, year as integer, session, asset type). -/
abbrev CanonKey : Type := List Char × Nat × List Char × List Char

/-- `asset_key` (source lines 232-244): `none` when year or session is
missing, the year does not parse as an integer, or session / asset type
fall outside the target enumerations. -/
def asset_key (asset : ExamAsset) : Option CanonKey :=
  match asset.year, asset.session with
  | some year, some session =>
    match toIntPy year with
    | none => none
    | some year_int =>
      let session_name := SESSION_LABELS_get session
      if session_name ∈ TARGET_SESSIONS then
        if asset.asset_type ∈ TARGET_ASSET_TYPES then
          some (asset.subject_code, year_int, session_name, asset.asset_type)
        else none
      else none
  | _, _ => none

/-- The reconciled map `assets_by_key`, modelled as an association list in
insertion order (the ordered-dictionary model of a Python `dict`). -/
abbrev AssetMap : Type := List (CanonKey × ExamAsset)

/-- Dictionary read `assets_by_key.get(key)`. -/
def findEntry (k : CanonKey) : AssetMap → Option ExamAsset
  | [] => none
  | (k2, a) :: t => if k2 = k then some a else findEntry k t

/-- Dictionary write `assets_by_key[key] = asset`: replace in place when the
key is bound, append otherwise (Python dicts keep insertion order and
overwrite values in place). -/
def setEntry (k : CanonKey) (a : ExamAsset) : AssetMap → AssetMap
  | [] => [(k, a)]
  | (k2, b) :: t => if k2 = k then (k, a) :: t else (k2, b) :: setEntry k a t

/-- The keys of the reconciled map. -/
def mapKeys (m : AssetMap) : List CanonKey := m.map Prod.fst

/-- One step of the reconciliation loop (source lines 495-501): skip assets
without a canonical key; claim a free key; replace an incumbent only when
`prefer_asset` holds. -/
def reconcileStep (m : AssetMap) (asset : ExamAsset) : AssetMap :=
  match asset_key asset with
  | none => m
  | some key =>
    match findEntry key m with
    | none => setEntry key asset m
    | some existing => if prefer_asset asset existing then setEntry key asset m else m

/-- The reconciliation engine: fold `reconcileStep` over the harvested
candidates in order, starting from the empty map (source lines 487-501). -/
def reconcile (assets : List ExamAsset) : AssetMap :=
  assets.foldl reconcileStep []

/-- Outcome of the streaming GET in `download_pdf` (source line 394),
as seen by the caller:
`httpError` – `raise_for_status` or a transport error before any chunk
(no byte reaches the destination file);
`midStreamFail` – a transport error after writing has started (the listed
chunks were already written when the exception fires);
`complete` – the full chunk sequence is transported. -/
inductive DownloadOutcome where
  | httpError : DownloadOutcome
  | midStreamFail : List (List Char) → DownloadOutcome
  | complete : List (List Char) → DownloadOutcome
deriving DecidableEq, Repr

/-- The network oracle for downloads: what a GET of each URL yields. -/
abbrev Network : Type := List Char → DownloadOutcome

/-- The filesystem model: the list of destination paths holding a file. -/
abbrev FS : Type := List (List Char)

/-- Opening a destination for writing (`local_path.open("wb")`): the path
now exists. -/
def addFile (path : List Char) (fs : FS) : FS :=
  if path ∈ fs then fs else fs ++ [path]

/-- `local_path.unlink(missing_ok=True)`: the path no longer exists. -/
def removeFile (path : List Char) (fs : FS) : FS :=
  fs.filter (fun p => p != path)

/-- First transported chunk that is nonempty (`if not chunk: continue`,
`first_bytes` capture, source lines 403-410). -/
def firstNonemptyChunk : List (List Char) → Option (List Char)
  | [] => none
  | c :: t => if c = [] then firstNonemptyChunk t else some c

/-- Python bytes whitespace used by `bytes.lstrip()`. -/
def isSpaceByte (c : Char) : Bool :=
  c == ' ' || c == '\t' || c == '\n' || c == '\x0d' || c == '\x0b' || c == '\x0c'

/-- The PDF signature test `first_bytes.lstrip().startswith(b"%PDF")`
(source line 411), on `none` when no nonempty chunk arrived. -/
def magicOk (first_bytes : Option (List Char)) : Bool :=
  match first_bytes with
  | none => false
  | some bs => headMatches ("%PDF".toList) (bs.dropWhile isSpaceByte)

/-- `download_pdf` (source lines 386-424) as a state transformer on the
filesystem: returns whether the asset is accepted together with the
resulting filesystem.
Branches: an existing destination short-circuits to accepted; an HTTP
error fails with nothing written; a mid-stream failure leaves a partial
file which the `except` branch unlinks; a complete transfer is kept only
when the first bytes carry the PDF magic, and unlinked otherwise. -/
def download_pdf (net : Network) (fs : FS) (asset : ExamAsset) : Bool × FS :=
  if asset.local_path ∈ fs then (true, fs)
  else
    match net asset.pdf_url with
    | .httpError => (false, removeFile asset.local_path fs)
    | .midStreamFail _ => (false, removeFile asset.local_path (addFile asset.local_path fs))
    | .complete chunks =>
      let fsW := addFile asset.local_path fs
      if magicOk (firstNonemptyChunk chunks) then (true, fsW)
      else (false, removeFile asset.local_path fsW)

/-- The Fetch & Validate loop of `main` (source lines 557-560): each asset
in order is downloaded and appended to the manifest when accepted.  Returns
the Accepted Set (the manifest) and the final filesystem. -/
def fetchAll (net : Network) (fs : FS) (assets : List ExamAsset) : List ExamAsset × FS :=
  match assets with
  | [] => ([], fs)
  | a :: rest =>
    let step := download_pdf net fs a
    let tail := fetchAll net step.2 rest
    (if step.1 then a :: tail.1 else tail.1, tail.2)

/-- Decimal rendering of a year, Python `str(year)` / `format` of an int. -/
def natStr (n : Nat) : List Char := (Nat.repr n).toList

/-- UTF-8 bytes of a character (as numbers below 256), used by the model of
`urllib.parse.quote`. -/
def utf8Bytes (c : Char) : List Nat :=
  let n := c.toNat
  if n < 128 then [n]
  else if n < 2048 then [192 + n / 64, 128 + n % 64]
  else if n < 65536 then [224 + n / 4096, 128 + (n / 64) % 64, 128 + n % 64]
  else [240 + n / 262144, 128 + (n / 4096) % 64, 128 + (n / 64) % 64, 128 + n % 64]

/-- Upper-case hexadecimal digit. -/
def hexDigitUpper (n : Nat) : Char :=
  if n < 10 then Char.ofNat ('0'.toNat + n) else Char.ofNat ('A'.toNat + n - 10)

/-- Model of `urllib.parse.quote(s)` with the default `safe="/"`: letters,
digits, `_.-~` and `/` pass through, everything else is percent-encoded
from its UTF-8 bytes. -/
def quotePy (s : List Char) : List Char :=
  s.flatMap (fun c =>
    if isAlnumAscii c || c == '_' || c == '.' || c == '-' || c == '~' || c == '/' then [c]
    else (utf8Bytes c).flatMap (fun b => ['%', hexDigitUpper (b / 16), hexDigitUpper (b % 16)]))

/-- `TYPE_LABELS.get(asset_type)` (source line 75). -/
def TYPE_LABELS_get (asset_type : List Char) : Option (List Char) :=
  if asset_type = "MainExam".toList then some ("Sujet".toList)
  else if asset_type = "Correction".toList then some ("Corrigé".toList)
  else none

/-- One entry of `TELMID_PATTERNS` (source lines 85-116): a base URL and the
two format templates, represented as functions of (year, session label,
type label). -/
structure TelmidPattern where
  base_url : List Char
  file_template : Nat → List Char → List Char → List Char
  title_template : Nat → List Char → List Char → List Char

/-- `TELMID_PATTERNS["Math"]` (source lines 86-95). -/
def telmidMath : TelmidPattern where
  base_url := "https://telmidtice.com/assets/2bac-pc/maths-fr/Examens Nationaux/".toList
  file_template := fun year session_label type_label =>
    "TelmidTice - Examen National Maths Sciences et Technologies ".toList ++
      natStr year ++ (' ' :: session_label) ++ " - ".toList ++ type_label ++ ".pdf".toList
  title_template := fun year session_label type_label =>
    "TelmidTICE Mathématiques ".toList ++ natStr year ++ (' ' :: session_label) ++
      " – ".toList ++ type_label

/-- `TELMID_PATTERNS["PC"]` (source lines 96-105). -/
def telmidPC : TelmidPattern where
  base_url := "https://telmidtice.com/assets/2bac-pc/pc-fr/Examens Nationaux/".toList
  file_template := fun year session_label type_label =>
    "TelmidTice - Examen National Physique-Chimie SPC ".toList ++
      natStr year ++ (' ' :: session_label) ++ " - ".toList ++ type_label ++ ".pdf".toList
  title_template := fun year session_label type_label =>
    "TelmidTICE Physique-Chimie ".toList ++ natStr year ++ (' ' :: session_label) ++
      " – ".toList ++ type_label

/-- `TELMID_PATTERNS["SVT"]` (source lines 106-115). -/
def telmidSVT : TelmidPattern where
  base_url := "https://telmidtice.com/assets/2bac-pc/svt-fr/Examens Nationaux/".toList
  file_template := fun year session_label type_label =>
    "TelmidTice - Examen National SVT Sciences Physiques ".toList ++
      natStr year ++ (' ' :: session_label) ++ " - ".toList ++ type_label ++ ".pdf".toList
  title_template := fun year session_label type_label =>
    "TelmidTICE SVT ".toList ++ natStr year ++ (' ' :: session_label) ++
      " – ".toList ++ type_label

/-- `TELMID_PATTERNS.get(subject_code)` (source line 269). -/
def TELMID_PATTERNS_get (subject_code : List Char) : Option TelmidPattern :=
  if subject_code = "Math".toList then some telmidMath
  else if subject_code = "PC".toList then some telmidPC
  else if subject_code = "SVT".toList then some telmidSVT
  else none

/-- Outcome of the metadata-only HEAD probe in `build_telmid_asset`
(source lines 283-288): status 200, a non-200 status, or a transport
exception. -/
inductive ProbeResult where
  | ok : ProbeResult
  | badStatus : ProbeResult
  | netError : ProbeResult
deriving DecidableEq, Repr

/-- The network oracle for existence probes. -/
abbrev Probe : Type := List Char → ProbeResult

/-- The synthesized URL a gap-fill probe targets (source lines 269-281):
base URL plus the percent-encoded formatted filename, `none` when the
subject has no template or the asset type has no label. -/
def telmid_pdf_url (subject_code : List Char) (year : Nat)
    (session_name asset_type : List Char) : Option (List Char) :=
  match TELMID_PATTERNS_get subject_code with
  | none => none
  | some pattern =>
    match TYPE_LABELS_get asset_type with
    | none => none
    | some type_label =>
      some (pattern.base_url ++
        quotePy (pattern.file_template year (SESSION_LABELS_get session_name) type_label))

/-- `build_telmid_asset` (source lines 260-311): construct the templated
URL, probe it with a HEAD request, and return the synthesized candidate
only when the probe reports success. -/
def build_telmid_asset (probe : Probe) (subject_code subject_label folder : List Char)
    (year : Nat) (session_name asset_type : List Char) : Option ExamAsset :=
  match TELMID_PATTERNS_get subject_code with
  | none => none
  | some pattern =>
    let session_label := SESSION_LABELS_get session_name
    match TYPE_LABELS_get asset_type with
    | none => none
    | some type_label =>
      let filename := pattern.file_template year session_label type_label
      let pdf_url := pattern.base_url ++ quotePy filename
      match probe pdf_url with
      | .ok =>
        let local_filename :=
          sanitize_filename [subject_code, natStr year, session_name, asset_type]
        some { subject_code := subject_code
               subject_label := subject_label
               year := some (natStr year)
               session := some session_name
               asset_type := asset_type
               source_title := pattern.title_template year session_label type_label
               source_page := pattern.base_url
               pdf_url := pdf_url
               local_path := folder ++ ('/' :: local_filename) }
      | _ => none

/-- The Gap Synthesizer step for one expected key (source lines 510-523):
an occupied key is left alone; otherwise the key is occupied exactly when
`build_telmid_asset` returns a candidate. -/
def gapFillStep (probe : Probe) (subject_code subject_label folder : List Char)
    (year : Nat) (session_name asset_type : List Char) (m : AssetMap) : AssetMap :=
  let key : CanonKey := (subject_code, year, session_name, asset_type)
  match findEntry key m with
  | some _ => m
  | none =>
    match build_telmid_asset probe subject_code subject_label folder year
        session_name asset_type with
    | some fallback => setEntry key fallback m
    | none => m

/-- True when the URL begins with a scheme (letters followed by a colon),
the condition under which `urljoin` keeps the URL as-is. -/
def hasScheme (url : List Char) : Bool :=
  let pre := url.takeWhile (fun c => c != ':' && c != '/' && c != '?' && c != '#')
  match url.drop pre.length with
  | ':' :: _ => !pre.isEmpty && pre.all (fun c => ('A' ≤ c && c ≤ 'Z') || ('a' ≤ c && c ≤ 'z'))
  | _ => false

/-- The scheme of a URL (text before the first colon). -/
def schemePart (url : List Char) : List Char := url.takeWhile (fun c => c != ':')

/-- The URL up to and including the last slash (the base directory against
which a relative reference is resolved). -/
def dropLastSegment (s : List Char) : List Char :=
  (s.reverse.dropWhile (fun c => c != '/')).reverse

/-- Model of `urllib.parse.urljoin(base, href)` restricted to the href
shapes arising on the harvested pages: an absolute href is kept, a
protocol-relative href takes the base's scheme, a root-relative href takes
the base's scheme and host, any other href is resolved against the base's
directory (no `..` normalization). -/
def urljoin (base href : List Char) : List Char :=
  if hasScheme href then href
  else
    match href with
    | [] => base
    | '/' :: '/' :: rest => schemePart base ++ (':' :: '/' :: '/' :: rest)
    | '/' :: rest => schemePart base ++ (':' :: '/' :: '/' :: netloc base) ++ ('/' :: rest)
    | _ => dropLastSegment base ++ href

/-- The part of a URL after its authority component (path, query and
fragment); the whole URL when it has no authority. -/
def afterAuthority (url : List Char) : List Char :=
  match afterDoubleSlash url with
  | some t => t.dropWhile (fun c => c != '/' && c != '?' && c != '#')
  | none => url

/-- Model of `urlparse(url).path`. -/
def urlPath (url : List Char) : List Char :=
  (afterAuthority url).takeWhile (fun c => c != '?' && c != '#')

/-- Model of `urlparse(url).query`. -/
def urlQuery (url : List Char) : List Char :=
  match (afterAuthority url).dropWhile (fun c => c != '?' && c != '#') with
  | '?' :: t => t.takeWhile (fun c => c != '#')
  | _ => []

/-- Hexadecimal digit value, for percent-decoding. -/
def hexVal (c : Char) : Option Nat :=
  if '0' ≤ c && c ≤ '9' then some (c.toNat - '0'.toNat)
  else if 'A' ≤ c && c ≤ 'F' then some (c.toNat - 'A'.toNat + 10)
  else if 'a' ≤ c && c ≤ 'f' then some (c.toNat - 'a'.toNat + 10)
  else none

/-- Model of `urllib.parse.unquote`: decode each `%XX` escape to the byte it
names (ASCII model: multi-byte UTF-8 sequences are not recombined), leave
malformed escapes untouched. -/
def unquote : List Char → List Char
  | [] => []
  | '%' :: a :: b :: t =>
    match hexVal a, hexVal b with
    | some x, some y => Char.ofNat (16 * x + y) :: unquote t
    | _, _ => '%' :: unquote (a :: b :: t)
  | c :: t => c :: unquote t
  termination_by l => l.length

/-- Split a string on a separator character (Python `str.split(sep)` on a
nonempty separator, restricted to a one-character separator). -/
def splitOn (sep : Char) : List Char → List (List Char)
  | [] => [[]]
  | c :: t =>
    let rest := splitOn sep t
    if c = sep then [] :: rest
    else
      match rest with
      | [] => [[c]]
      | r :: rs => (c :: r) :: rs

/-- Model of `parse_qs(query).get("url")` followed by `target[0]`
(source lines 183-185): the first `url=value` pair of the query string with
a nonempty value, plus-decoded and percent-decoded as `parse_qs` does. -/
def parse_qs_url (query : List Char) : Option (List Char) :=
  let pairs := splitOn '&' query
  let vals := pairs.filterMap (fun pr =>
    let k := pr.takeWhile (fun c => c != '=')
    match pr.dropWhile (fun c => c != '=') with
    | '=' :: v =>
      if v = [] then none
      else if k = "url".toList then
        some (unquote (v.map (fun c => if c = '+' then ' ' else c)))
      else none
    | _ => none)
  vals.head?

/-- The direct-download endpoint built for a Drive file id
(source line 195). -/
def driveDirectUrl (file_id : List Char) : List Char :=
  "https://drive.google.com/uc?export=download&id=".toList ++ file_id

/-- Python `parts[parts.index(x) + 1]` guarded by `x in parts`: the element
after the first occurrence of `x`, if any. -/
def elemAfter (x : List Char) : List (List Char) → Option (List Char)
  | [] => none
  | a :: t => if a = x then t.head? else elemAfter x t

/-- `normalize_pdf_url` (source lines 176-197): resolve the href against the
page URL; unwrap `telecharger` redirect helpers carrying a `url=` query
target; rewrite Drive `/file/d/<id>/` share links to the direct-download
endpoint; otherwise return the resolved URL.  The Python function's
`Optional` return is never `None`, so the model returns the string. -/
def normalize_pdf_url (href base_url : List Char) : List Char :=
  let absolute := urljoin base_url href
  let unwrapped : Option (List Char) :=
    if containsSub ("telecharger".toList) (urlPath absolute) then
      (parse_qs_url (urlQuery absolute)).map unquote
    else none
  match unwrapped with
  | some target => target
  | none =>
    if netloc absolute = "drive.google.com".toList ∨
       netloc absolute = "docs.google.com".toList then
      let parts := splitOn '/'
        (((urlPath absolute).dropWhile (fun c => c == '/')).reverse.dropWhile
          (fun c => c == '/')).reverse
      if ("file".toList) ∈ parts && ("d".toList) ∈ parts then
        match elemAfter ("d".toList) parts with
        | some file_id => driveDirectUrl file_id
        | none => absolute
      else absolute
    else absolute

/-- One anchor as seen by `parse_exam_links`: its optional href attribute
and its (stripped) display text. -/
structure Anchor where
  href : Option (List Char)
  text : List Char
deriving DecidableEq, Repr

/-- Python ASCII whitespace for `str.strip()`. -/
def isPySpace (c : Char) : Bool :=
  c == ' ' || c == '\t' || c == '\n' || c == '\x0d' || c == '\x0b' || c == '\x0c'

/-- Python `s.strip()` (ASCII whitespace model). -/
def stripWs (s : List Char) : List Char :=
  ((s.dropWhile isPySpace).reverse.dropWhile isPySpace).reverse

/-- The body of the anchor loop of `parse_exam_links` (source lines
327-381), as a step on the state (assets collected so far, seen PDF URLs).
Every `continue` of the source is a branch returning the state unchanged. -/
def parseStep (page_url subject_code subject_label target_folder : List Char)
    (st : List ExamAsset × List (List Char)) (anchor : Anchor) :
    List ExamAsset × List (List Char) :=
  match anchor.href with
  | none => st
  | some href =>
    if href = [] then st
    else
      let pdf_url := normalize_pdf_url href page_url
      if pdf_url = [] then st
      else if endsWithStr (lowerStr pdf_url) (".pdf".toList) = false ∧
          netloc pdf_url ≠ "drive.google.com".toList ∧
          netloc pdf_url ≠ "docs.google.com".toList then st
      else
        let title := anchor.text
        if title = [] then st
        else if containsSub ("préparation".toList) (lowerStr title) ||
            containsSub ("preparation".toList) (lowerStr title) then st
        else
          match identify_asset_type title with
          | none => st
          | some asset_type =>
            let pdf_url_key := stripWs pdf_url
            if pdf_url_key ∈ st.2 then st
            else
              let year := identify_year title
              let session := identify_session title
              let filename := sanitize_filename
                [subject_code,
                 (match year with | some y => y | none => "unknown_year".toList),
                 (match session with | some s => s | none => "session".toList),
                 asset_type]
              (st.1 ++ [{ subject_code := subject_code
                          subject_label := subject_label
                          year := year
                          session := session
                          asset_type := asset_type
                          source_title := title
                          source_page := page_url
                          pdf_url := pdf_url
                          local_path := target_folder ++ ('/' :: filename) }],
               st.2 ++ [pdf_url_key])

/-- `parse_exam_links` (source lines 314-383) on the anchor list extracted
from the page: fold the anchor loop from the empty state and return the
collected assets. -/
def parse_exam_links (anchors : List Anchor)
    (page_url subject_code subject_label target_folder : List Char) : List ExamAsset :=
  (anchors.foldl (parseStep page_url subject_code subject_label target_folder)
    ([], [])).1

/-! ### Map lemmas for the reconciliation engine -/

theorem setEntry_cons_ne (k : CanonKey) (a : ExamAsset) (k2 : CanonKey) (b : ExamAsset)
    (t : AssetMap) (hk : ¬ k2 = k) :
    setEntry k a ((k2, b) :: t) = (k2, b) :: setEntry k a t := by
  simp [setEntry, hk]

theorem setEntry_cons_eq (k : CanonKey) (a : ExamAsset) (b : ExamAsset) (t : AssetMap) :
    setEntry k a ((k, b) :: t) = (k, a) :: t := by
  simp [setEntry]

theorem mapKeys_cons (e : CanonKey × ExamAsset) (t : AssetMap) :
    mapKeys (e :: t) = e.1 :: mapKeys t := rfl

theorem mapKeys_setEntry (k : CanonKey) (a : ExamAsset) (m : AssetMap) :
    mapKeys (setEntry k a m) =
      if k ∈ mapKeys m then mapKeys m else mapKeys m ++ [k] := by
  induction m with
  | nil => simp [setEntry, mapKeys]
  | cons f t ih =>
    obtain ⟨k2, b⟩ := f
    by_cases hk : k2 = k
    · subst hk
      rw [setEntry_cons_eq, mapKeys_cons, mapKeys_cons]
      simp
    · rw [setEntry_cons_ne k a k2 b t hk, mapKeys_cons, mapKeys_cons, ih]
      have hne : ¬ k = k2 := fun h => hk h.symm
      by_cases hm : k ∈ mapKeys t
      · simp [List.mem_cons, hne, hm]
      · simp [List.mem_cons, hne, hm]

theorem mem_of_mem_setEntry (k : CanonKey) (a : ExamAsset) (m : AssetMap)
    (e : CanonKey × ExamAsset) (he : e ∈ setEntry k a m) : e = (k, a) ∨ e ∈ m := by
  induction m with
  | nil => simpa [setEntry] using he
  | cons f t ih =>
    obtain ⟨k2, b⟩ := f
    by_cases hk : k2 = k
    · subst hk
      rw [setEntry_cons_eq, List.mem_cons] at he
      rcases he with h | h
      · exact Or.inl h
      · exact Or.inr (List.mem_cons_of_mem _ h)
    · rw [setEntry_cons_ne k a k2 b t hk, List.mem_cons] at he
      rcases he with h | h
      · exact Or.inr (by simp [h])
      · rcases ih h with h2 | h2
        · exact Or.inl h2
        · exact Or.inr (List.mem_cons_of_mem _ h2)

theorem nodup_mapKeys_setEntry (k : CanonKey) (a : ExamAsset) (m : AssetMap)
    (h : (mapKeys m).Nodup) : (mapKeys (setEntry k a m)).Nodup := by
  rw [mapKeys_setEntry]
  split
  · exact h
  · next hk => simp [List.nodup_append, h, hk]

/-- The reconciliation step either keeps the map or writes the candidate
under its own canonical key. -/
theorem reconcileStep_cases (m : AssetMap) (a : ExamAsset) :
    reconcileStep m a = m ∨
      ∃ k, asset_key a = some k ∧ reconcileStep m a = setEntry k a m := by
  cases hk : asset_key a with
  | none => exact Or.inl (by simp [reconcileStep, hk])
  | some key =>
    cases hf : findEntry key m with
    | none => exact Or.inr ⟨key, rfl, by simp [reconcileStep, hk, hf]⟩
    | some existing =>
      by_cases hp : prefer_asset a existing = true
      · exact Or.inr ⟨key, rfl, by simp [reconcileStep, hk, hf, hp]⟩
      · exact Or.inl (by simp [reconcileStep, hk, hf, hp])

/-- C1: for every sequence of harvested candidates, the reconciled map
holds at most one candidate per canonical key (its key list has no
duplicate), and every entry sits under its own candidate's canonical key —
claiming and replacing never produce two candidates under one key. -/
theorem reconcile_at_most_one_per_key (assets : List ExamAsset) :
    (mapKeys (reconcile assets)).Nodup ∧
      ∀ e ∈ reconcile assets, asset_key e.2 = some e.1 := by
  suffices h : ∀ m : AssetMap, (mapKeys m).Nodup → (∀ e ∈ m, asset_key e.2 = some e.1) →
      (mapKeys (List.foldl reconcileStep m assets)).Nodup ∧
        ∀ e ∈ List.foldl reconcileStep m assets, asset_key e.2 = some e.1 by
    exact h [] (by simp [mapKeys]) (by simp)
  induction assets with
  | nil => intro m h1 h2; exact ⟨h1, h2⟩
  | cons a rest ih =>
    intro m h1 h2
    rw [List.foldl_cons]
    rcases reconcileStep_cases m a with hc | ⟨key, hkey, hc⟩
    · rw [hc]; exact ih m h1 h2
    · rw [hc]
      refine ih _ (nodup_mapKeys_setEntry _ _ _ h1) ?_
      intro e he
      rcases mem_of_mem_setEntry key a m e he with h | h
      · rw [h]; exact hkey
      · exact h2 e h

/-- C2: two raw candidates for the same canonical key, processed in either
order: the one whose resource host has the strictly smaller (better) rank
wins the key, and at equal rank the first-seen candidate is kept. -/
theorem prefer_determinism (a b : ExamAsset) (k : CanonKey)
    (ha : asset_key a = some k) (hb : asset_key b = some k) :
    (host_rank (lowerStr (netloc a.pdf_url)) < host_rank (lowerStr (netloc b.pdf_url)) →
      findEntry k (reconcile [a, b]) = some a ∧
        findEntry k (reconcile [b, a]) = some a) ∧
    (host_rank (lowerStr (netloc a.pdf_url)) = host_rank (lowerStr (netloc b.pdf_url)) →
      findEntry k (reconcile [a, b]) = some a ∧
        findEntry k (reconcile [b, a]) = some b) := by
  have h0a : reconcileStep [] a = [(k, a)] := by
    simp [reconcileStep, ha, findEntry, setEntry]
  have h0b : reconcileStep [] b = [(k, b)] := by
    simp [reconcileStep, hb, findEntry, setEntry]
  have hfa : findEntry k [(k, a)] = some a := by simp [findEntry]
  have hfb : findEntry k [(k, b)] = some b := by simp [findEntry]
  have hab : reconcile [a, b] = reconcileStep [(k, a)] b := by
    simp [reconcile, h0a]
  have hba : reconcile [b, a] = reconcileStep [(k, b)] a := by
    simp [reconcile, h0b]
  constructor
  · intro hlt
    have hpba : prefer_asset b a = false := by
      simp only [prefer_asset, decide_eq_false_iff_not]
      omega
    have hpab : prefer_asset a b = true := by
      simp only [prefer_asset, decide_eq_true_eq]
      exact hlt
    constructor
    · rw [hab]
      have : reconcileStep [(k, a)] b = [(k, a)] := by
        simp [reconcileStep, hb, hfa, hpba]
      rw [this, hfa]
    · rw [hba]
      have : reconcileStep [(k, b)] a = [(k, a)] := by
        simp [reconcileStep, ha, hfb, hpab, setEntry]
      rw [this, hfa]
  · intro heq
    have hpba : prefer_asset b a = false := by
      simp only [prefer_asset, decide_eq_false_iff_not]
      omega
    have hpab : prefer_asset a b = false := by
      simp only [prefer_asset, decide_eq_false_iff_not]
      omega
    constructor
    · rw [hab]
      have : reconcileStep [(k, a)] b = [(k, a)] := by
        simp [reconcileStep, hb, hfa, hpba]
      rw [this, hfa]
    · rw [hba]
      have : reconcileStep [(k, b)] a = [(k, b)] := by
        simp [reconcileStep, ha, hfb, hpab]
      rw [this, hfb]

/-- A harvested candidate hosted on telmidtice.com for Math 2021 Normale
MainExam, used to instantiate the reconciliation theorems. -/
def sampleTelmidAsset : ExamAsset where
  subject_code := "Math".toList
  subject_label := "Mathématiques".toList
  year := some ("2021".toList)
  session := some ("Normale".toList)
  asset_type := "MainExam".toList
  source_title := "Examen National 2021 Session Normale".toList
  source_page := "https://telmidtice.com/2bac-pc-mathematiques-examens-nationaux/".toList
  pdf_url := "https://telmidtice.com/assets/a.pdf".toList
  local_path := "Math/Math_2021_Normale_MainExam.pdf".toList

/-- The same canonical identity harvested from an unranked host. -/
def sampleOtherAsset : ExamAsset :=
  { sampleTelmidAsset with
    pdf_url := "https://www.taalime.ma/files/a.pdf".toList
    source_page := "https://www.taalime.ma/examen/".toList }

/-- Witness for `prefer_determinism`: the telmidtice.com candidate wins the
key against an unranked-host candidate in both arrival orders. -/
theorem prefer_determinism_witness :
    asset_key sampleTelmidAsset =
      some ("Math".toList, 2021, "Normale".toList, "MainExam".toList) ∧
    host_rank (lowerStr (netloc sampleTelmidAsset.pdf_url)) <
      host_rank (lowerStr (netloc sampleOtherAsset.pdf_url)) ∧
    findEntry ("Math".toList, 2021, "Normale".toList, "MainExam".toList)
      (reconcile [sampleTelmidAsset, sampleOtherAsset]) = some sampleTelmidAsset ∧
    findEntry ("Math".toList, 2021, "Normale".toList, "MainExam".toList)
      (reconcile [sampleOtherAsset, sampleTelmidAsset]) = some sampleTelmidAsset := by
  refine ⟨by decide, by decide, ?_, ?_⟩
  · exact ((prefer_determinism sampleTelmidAsset sampleOtherAsset _
      (by decide) (by decide)).1 (by decide)).1
  · exact ((prefer_determinism sampleTelmidAsset sampleOtherAsset _
      (by decide) (by decide)).1 (by decide)).2

theorem rankIn_eq (host : List Char) (l : List (List Char)) (i : Nat) (hi : i < l.length)
    (hend : endsWithStr host (l.getD i []) = true)
    (hmin : ∀ j, j < i → endsWithStr host (l.getD j []) = false) :
    rankIn host l = i := by
  induction l generalizing i with
  | nil => simp at hi
  | cons d rest ih =>
    cases i with
    | zero =>
      simp only [List.getD_cons_zero] at hend
      simp [rankIn, hend]
    | succ n =>
      have hd : endsWithStr host d = false := by
        simpa using hmin 0 (Nat.succ_pos n)
      simp only [rankIn, hd, Bool.false_eq_true, if_false]
      have := ih n (by simpa using hi) (by simpa using hend)
        (fun j hj => by simpa using hmin (j + 1) (by omega))
      omega

/-- C9: the host trust rank is computed by pure suffix matching against the
preference list — any host string that merely ends with a listed domain
receives that domain's index as its rank, the earliest matching list entry
winning. -/
theorem host_rank_by_suffix (host : List Char) (i : Nat)
    (hi : i < PREFERRED_DOMAINS.length)
    (hend : endsWithStr host (PREFERRED_DOMAINS.getD i []) = true)
    (hmin : ∀ j, j < i → endsWithStr host (PREFERRED_DOMAINS.getD j []) = false) :
    host_rank host = i :=
  rankIn_eq host PREFERRED_DOMAINS i hi hend hmin

/-- Witness for `host_rank_by_suffix`: an unrelated host whose name merely
ends with "telmidtice.com" is ranked like the trusted domain itself. -/
theorem host_rank_by_suffix_witness :
    endsWithStr ("eviltelmidtice.com".toList) (PREFERRED_DOMAINS.getD 0 []) = true ∧
    host_rank ("eviltelmidtice.com".toList) = 0 :=
  ⟨by decide, host_rank_by_suffix ("eviltelmidtice.com".toList) 0 (by decide)
    (by decide) (fun j hj => absurd hj (Nat.not_lt_zero j))⟩

/-- C6: the asset-type classifier returns Correction whenever a
correction-family keyword occurs, even when subject/exam-family keywords
also occur; MainExam when only subject/exam keywords occur; nothing when
neither family occurs. -/
theorem identify_asset_type_priority (text : List Char) :
    (containsSub ("corrig".toList) (lowerStr text) = true →
      identify_asset_type text = some ("Correction".toList)) ∧
    (containsSub ("corrig".toList) (lowerStr text) = false →
      (containsSub ("sujet".toList) (lowerStr text) = true ∨
        containsSub ("examen".toList) (lowerStr text) = true) →
      identify_asset_type text = some ("MainExam".toList)) ∧
    (containsSub ("corrig".toList) (lowerStr text) = false →
      containsSub ("sujet".toList) (lowerStr text) = false →
      containsSub ("examen".toList) (lowerStr text) = false →
      identify_asset_type text = none) := by
  refine ⟨fun h1 => ?_, fun h1 h2 => ?_, fun h1 h2 h3 => ?_⟩
  · simp only [identify_asset_type]
    rw [if_pos h1]
  · simp only [identify_asset_type]
    rw [if_neg (ne_true_of_eq_false h1),
      if_pos (show _ = true from (Bool.or_eq_true _ _).mpr
        (h2.imp (fun h => h) (fun h => h)))]
  · simp only [identify_asset_type]
    rw [if_neg (ne_true_of_eq_false h1), if_neg (fun hc => by
      rcases (Bool.or_eq_true _ _).mp hc with h | h
      · exact absurd h (ne_true_of_eq_false h2)
      · exact absurd h (ne_true_of_eq_false h3))]

/-- Witness for `identify_asset_type_priority`: a text holding both keyword
families classifies as a correction. -/
theorem identify_asset_type_priority_witness :
    containsSub ("corrig".toList) (lowerStr ("Examen avec corrigé 2019".toList)) = true ∧
    containsSub ("examen".toList) (lowerStr ("Examen avec corrigé 2019".toList)) = true ∧
    identify_asset_type ("Examen avec corrigé 2019".toList) = some ("Correction".toList) :=
  ⟨by decide, by decide,
    (identify_asset_type_priority ("Examen avec corrigé 2019".toList)).1 (by decide)⟩

/-- C7: the year classifier returns the leftmost occurrence of the
19xx/20xx pattern when some position matches (texts holding several years
yield the first occurrence), and nothing when no position matches. -/
theorem identify_year_leftmost (text : List Char) :
    (identify_year text = none ↔ ∀ i, matchYearAt (text.drop i) = none) ∧
    (∀ y, identify_year text = some y →
      ∃ i, matchYearAt (text.drop i) = some y ∧
        ∀ j, j < i → matchYearAt (text.drop j) = none) := by
  induction text with
  | nil =>
    constructor
    · simp [identify_year, matchYearAt]
    · intro y h
      simp [identify_year] at h
  | cons c t ih =>
    cases hm : matchYearAt (c :: t) with
    | some y =>
      constructor
      · constructor
        · intro h
          simp [identify_year, hm] at h
        · intro h
          have := h 0
          simp [hm] at this
      · intro y' h
        have hy : y' = y := by
          simp [identify_year, hm] at h
          exact h.symm
        subst hy
        exact ⟨0, by simpa using hm, fun j hj => absurd hj (Nat.not_lt_zero j)⟩
    | none =>
      have hrec : identify_year (c :: t) = identify_year t := by
        simp [identify_year, hm]
      constructor
      · rw [hrec]
        constructor
        · intro h i
          cases i with
          | zero => simpa using hm
          | succ n => simpa using (ih.1.mp h) n
        · intro h
          exact ih.1.mpr (fun i => by simpa using h (i + 1))
      · intro y h
        rw [hrec] at h
        obtain ⟨i, h1, h2⟩ := ih.2 y h
        refine ⟨i + 1, by simpa using h1, fun j hj => ?_⟩
        cases j with
        | zero => simpa using hm
        | succ n => simpa using h2 n (by omega)

/-- Witness for `identify_year_leftmost`: a text with two year tokens
yields the first, at the leftmost matching position. -/
theorem identify_year_leftmost_witness :
    identify_year ("Bac 2012 et 2015".toList) = some ("2012".toList) ∧
    ∃ i, matchYearAt (("Bac 2012 et 2015".toList).drop i) = some ("2012".toList) ∧
      ∀ j, j < i → matchYearAt (("Bac 2012 et 2015".toList).drop j) = none :=
  ⟨by decide,
    (identify_year_leftmost ("Bac 2012 et 2015".toList)).2 ("2012".toList) (by decide)⟩

/-! ### Fetch & Validate lemmas -/

theorem removeFile_not_mem (path : List Char) (fs : FS) (h : path ∉ fs) :
    removeFile path fs = fs := by
  rw [removeFile, List.filter_eq_self.mpr]
  intro a ha
  rw [bne_iff_ne]
  exact fun he => h (he ▸ ha)

theorem removeFile_addFile_cancel (path : List Char) (fs : FS) (h : path ∉ fs) :
    removeFile path (addFile path fs) = fs := by
  rw [addFile, if_neg h, removeFile, List.filter_append]
  have h1 : List.filter (fun p => p != path) fs = fs := removeFile_not_mem path fs h
  have h2 : List.filter (fun p => p != path) [path] = [] := by simp
  rw [h1, h2, List.append_nil]

/-- C5: a candidate whose destination already exists is skipped: no network
request is made (the result is the same for every network oracle), the
filesystem is untouched, and the candidate is reported accepted; over a
fully populated storage tree, Fetch & Validate accepts every candidate
without touching the network, and a second identical run returns the
identical Accepted Set and filesystem. -/
theorem idempotent_skip (net net2 : Network) (fs : FS) (asset : ExamAsset)
    (assets : List ExamAsset) (hex : asset.local_path ∈ fs)
    (hall : ∀ a ∈ assets, a.local_path ∈ fs) :
    download_pdf net fs asset = (true, fs) ∧
    fetchAll net fs assets = (assets, fs) ∧
    fetchAll net fs assets = fetchAll net2 fs assets ∧
    fetchAll net (fetchAll net fs assets).2 assets = fetchAll net fs assets := by
  have hskip : ∀ (n : Network) (a : ExamAsset), a.local_path ∈ fs →
      download_pdf n fs a = (true, fs) := by
    intro n a h
    simp [download_pdf, h]
  have hfetch : ∀ (n : Network) (l : List ExamAsset), (∀ a ∈ l, a.local_path ∈ fs) →
      fetchAll n fs l = (l, fs) := by
    intro n l
    induction l with
    | nil => intro _; rfl
    | cons a t ih =>
      intro hl
      have h1 := hskip n a (hl a (by simp))
      simp [fetchAll, h1, ih (fun x hx => hl x (by simp [hx]))]
  refine ⟨hskip net asset hex, hfetch net assets hall, ?_, ?_⟩
  · rw [hfetch net assets hall, hfetch net2 assets hall]
  · rw [hfetch net assets hall]
    exact hfetch net assets hall

/-- Witness for `idempotent_skip`: with the destination present, the asset
is accepted and the filesystem is unchanged even under a network oracle
that always fails. -/
theorem idempotent_skip_witness :
    download_pdf (fun _ => DownloadOutcome.httpError) [sampleTelmidAsset.local_path]
        sampleTelmidAsset = (true, [sampleTelmidAsset.local_path]) ∧
    fetchAll (fun _ => DownloadOutcome.httpError) [sampleTelmidAsset.local_path]
        [sampleTelmidAsset] = ([sampleTelmidAsset], [sampleTelmidAsset.local_path]) := by
  constructor
  · exact (idempotent_skip (fun _ => DownloadOutcome.httpError)
      (fun _ => DownloadOutcome.httpError) [sampleTelmidAsset.local_path]
      sampleTelmidAsset [] (by simp) (by simp)).1
  · exact (idempotent_skip (fun _ => DownloadOutcome.httpError)
      (fun _ => DownloadOutcome.httpError) [sampleTelmidAsset.local_path]
      sampleTelmidAsset [sampleTelmidAsset] (by simp) (by simp)).2.1

/-- C4: a candidate whose transfer completes without the PDF magic in its
first bytes, or whose transport fails mid-stream, is rejected, its
destination path holds no file afterwards (the partial write is deleted),
and the run continues over the remaining candidates unchanged. -/
theorem failed_download_leaves_no_file (net : Network) (fs : FS) (asset : ExamAsset)
    (rest : List ExamAsset) (hnew : asset.local_path ∉ fs)
    (hfail : (∃ chunks, net asset.pdf_url = DownloadOutcome.midStreamFail chunks) ∨
      (∃ chunks, net asset.pdf_url = DownloadOutcome.complete chunks ∧
        magicOk (firstNonemptyChunk chunks) = false)) :
    download_pdf net fs asset = (false, fs) ∧
    asset.local_path ∉ (download_pdf net fs asset).2 ∧
    fetchAll net fs (asset :: rest) = fetchAll net fs rest := by
  have hdl : download_pdf net fs asset = (false, fs) := by
    rcases hfail with ⟨cs, hc⟩ | ⟨cs, hc, hm⟩
    · simp [download_pdf, hnew, hc, removeFile_addFile_cancel _ _ hnew]
    · simp [download_pdf, hnew, hc, hm, removeFile_addFile_cancel _ _ hnew]
  refine ⟨hdl, by rw [hdl]; exact hnew, ?_⟩
  simp [fetchAll, hdl]

/-- Witness for `failed_download_leaves_no_file`: a completed transfer whose
bytes are not a PDF is rejected and leaves the empty filesystem empty. -/
theorem failed_download_leaves_no_file_witness :
    magicOk (firstNonemptyChunk [("not a pdf".toList)]) = false ∧
    download_pdf (fun _ => DownloadOutcome.complete [("not a pdf".toList)]) []
      sampleTelmidAsset = (false, []) := by
  refine ⟨by decide, ?_⟩
  exact (failed_download_leaves_no_file
    (fun _ => DownloadOutcome.complete [("not a pdf".toList)]) [] sampleTelmidAsset []
    (by simp) (Or.inr ⟨("not a pdf".toList) :: [], rfl, by decide⟩)).1

/-! ### Gap Synthesizer lemmas -/

theorem build_telmid_asset_spec (probe : Probe) (sc sl folder : List Char) (year : Nat)
    (sn ty : List Char) :
    (∀ a, build_telmid_asset probe sc sl folder year sn ty = some a →
      telmid_pdf_url sc year sn ty = some a.pdf_url ∧ probe a.pdf_url = ProbeResult.ok) ∧
    (∀ u, telmid_pdf_url sc year sn ty = some u → probe u ≠ ProbeResult.ok →
      build_telmid_asset probe sc sl folder year sn ty = none) := by
  cases hp : TELMID_PATTERNS_get sc with
  | none =>
    constructor
    · intro a ha
      simp [build_telmid_asset, hp] at ha
    · intro u hu
      simp [telmid_pdf_url, hp] at hu
  | some pattern =>
    cases ht : TYPE_LABELS_get ty with
    | none =>
      constructor
      · intro a ha
        simp [build_telmid_asset, hp, ht] at ha
      · intro u hu
        simp [telmid_pdf_url, hp, ht] at hu
    | some type_label =>
      cases hpr : probe (pattern.base_url ++
          quotePy (pattern.file_template year (SESSION_LABELS_get sn) type_label)) with
      | ok =>
        constructor
        · intro a ha
          have hb : build_telmid_asset probe sc sl folder year sn ty = some
              { subject_code := sc
                subject_label := sl
                year := some (natStr year)
                session := some sn
                asset_type := ty
                source_title := pattern.title_template year (SESSION_LABELS_get sn) type_label
                source_page := pattern.base_url
                pdf_url := pattern.base_url ++
                  quotePy (pattern.file_template year (SESSION_LABELS_get sn) type_label)
                local_path := folder ++
                  ('/' :: sanitize_filename [sc, natStr year, sn, ty]) } := by
            simp [build_telmid_asset, hp, ht, hpr]
          rw [hb] at ha
          have hrec := Option.some.inj ha
          subst hrec
          exact ⟨by simp [telmid_pdf_url, hp, ht], hpr⟩
        · intro u hu hne
          have hu2 : u = pattern.base_url ++
              quotePy (pattern.file_template year (SESSION_LABELS_get sn) type_label) := by
            simpa [telmid_pdf_url, hp, ht] using hu.symm
          exact absurd (hu2 ▸ hpr) hne
      | badStatus =>
        constructor
        · intro a ha
          simp [build_telmid_asset, hp, ht, hpr] at ha
        · intro u hu hne
          simp [build_telmid_asset, hp, ht, hpr]
      | netError =>
        constructor
        · intro a ha
          simp [build_telmid_asset, hp, ht, hpr] at ha
        · intro u hu hne
          simp [build_telmid_asset, hp, ht, hpr]

theorem fetchAll_accepted_sublist (net : Network) (assets : List ExamAsset) :
    ∀ (fs : FS) (x : ExamAsset), x ∈ (fetchAll net fs assets).1 → x ∈ assets := by
  induction assets with
  | nil =>
    intro fs x hx
    simp [fetchAll] at hx
  | cons a t ih =>
    intro fs x hx
    by_cases hd : (download_pdf net fs a).1 = true
    · simp only [fetchAll, hd, if_true] at hx
      rcases List.mem_cons.mp hx with rfl | hx2
      · exact List.mem_cons_self _ _
      · exact List.mem_cons_of_mem _ (ih _ _ hx2)
    · simp only [fetchAll, hd, if_false] at hx
      exact List.mem_cons_of_mem _ (ih _ _ hx)

/-- C3: for a canonical key absent from the map, the Gap Synthesizer builds
at most one fallback candidate (an `Option`), occupies the key exactly when
the existence probe on the synthesized URL reports success, and on probe
failure or error builds nothing and leaves the map unchanged; moreover a
run's Accepted Set only ever holds candidates that entered Fetch &
Validate, so a never-constructed candidate cannot appear in it. -/
theorem gap_fill_probe_atomic (probe : Probe) (sc sl folder : List Char) (year : Nat)
    (sn ty : List Char) (m : AssetMap)
    (hfree : findEntry (sc, year, sn, ty) m = none) :
    (∀ a, build_telmid_asset probe sc sl folder year sn ty = some a →
      probe a.pdf_url = ProbeResult.ok ∧
      gapFillStep probe sc sl folder year sn ty m = setEntry (sc, year, sn, ty) a m) ∧
    (∀ u, telmid_pdf_url sc year sn ty = some u → probe u ≠ ProbeResult.ok →
      build_telmid_asset probe sc sl folder year sn ty = none ∧
      gapFillStep probe sc sl folder year sn ty m = m) ∧
    (∀ (net : Network) (fs : FS) (assets : List ExamAsset) (x : ExamAsset),
      x ∈ (fetchAll net fs assets).1 → x ∈ assets) := by
  refine ⟨?_, ?_, ?_⟩
  · intro a ha
    refine ⟨((build_telmid_asset_spec probe sc sl folder year sn ty).1 a ha).2, ?_⟩
    simp [gapFillStep, hfree, ha]
  · intro u hu hne
    have hb := (build_telmid_asset_spec probe sc sl folder year sn ty).2 u hu hne
    exact ⟨hb, by simp [gapFillStep, hfree, hb]⟩
  · intro net fs assets x hx
    exact fetchAll_accepted_sublist net assets fs x hx

set_option maxRecDepth 4000 in
/-- Witness for `gap_fill_probe_atomic`: a probe answering a non-200 status
for every URL builds no fallback for Math 2008 Normale MainExam and leaves
the empty map empty. -/
theorem gap_fill_probe_atomic_witness :
    build_telmid_asset (fun _ => ProbeResult.badStatus) ("Math".toList)
      ("Mathématiques".toList) ("Math".toList) 2008 ("Normale".toList)
      ("MainExam".toList) = none ∧
    gapFillStep (fun _ => ProbeResult.badStatus) ("Math".toList)
      ("Mathématiques".toList) ("Math".toList) 2008 ("Normale".toList)
      ("MainExam".toList) [] = [] :=
  (gap_fill_probe_atomic (fun _ => ProbeResult.badStatus) ("Math".toList)
    ("Mathématiques".toList) ("Math".toList) 2008 ("Normale".toList)
    ("MainExam".toList) [] rfl).2.1
    (("https://telmidtice.com/assets/2bac-pc/maths-fr/Examens Nationaux/TelmidTice%20-%20Examen%20National%20Maths%20Sciences%20et%20Technologies%202008%20Normale%20-%20Sujet.pdf").toList)
    (by decide) (by simp)

/-! ### Sanitizer lemmas -/

theorem alnum_ne_und (c : Char) (h : isAlnumAscii c = true) : (c == '_') = false := by
  rcases eq_or_ne c '_' with rfl | hne
  · exact absurd h (by decide)
  · simp [hne]

theorem dropWhile_eq_self_of_all (p : Char → Bool) (s : List Char)
    (h : ∀ c ∈ s, p c = false) : s.dropWhile p = s := by
  cases s with
  | nil => rfl
  | cons c t => simp [List.dropWhile_cons, h c (by simp)]

theorem dropWhile_append_left (p : Char → Bool) (x y : List Char)
    (h : x.dropWhile p ≠ []) : (x ++ y).dropWhile p = x.dropWhile p ++ y := by
  induction x with
  | nil => exact absurd rfl h
  | cons c t ih =>
    cases hc : p c with
    | true =>
      rw [List.dropWhile_cons_of_pos hc] at h
      simp only [List.cons_append, List.dropWhile_cons_of_pos hc]
      exact ih h
    | false =>
      simp [List.cons_append, List.dropWhile_cons_of_neg, hc]

theorem rdropU_append (u v : List Char) (h : rdropU v ≠ []) :
    rdropU (u ++ v) = u ++ rdropU v := by
  have hv : v.reverse.dropWhile (fun c => c == '_') ≠ [] := by
    intro hc
    exact h (by simp [rdropU, hc])
  rw [rdropU, List.reverse_append, dropWhile_append_left _ _ _ hv, List.reverse_append,
    List.reverse_reverse, rdropU]

theorem rdropU_concat_und (u : List Char) : rdropU (u ++ ['_']) = rdropU u := by
  rw [rdropU, rdropU, List.reverse_append]
  simp [List.dropWhile_cons]

theorem rdropU_all_keep (s : List Char) (h : ∀ c ∈ s, (c == '_') = false) :
    rdropU s = s := by
  rw [rdropU, dropWhile_eq_self_of_all _ _ (fun c hc => h c (List.mem_reverse.mp hc)),
    List.reverse_reverse]

theorem rdropU_ne_nil_of_head (c : Char) (t : List Char) (h : (c == '_') = false) :
    rdropU (c :: t) ≠ [] := by
  rw [rdropU]
  intro hcontra
  rw [List.reverse_eq_nil_iff] at hcontra
  have := List.dropWhile_eq_nil_iff.mp hcontra c (by simp)
  rw [h] at this
  exact Bool.noConfusion this

theorem dropU_cons_of_head (c : Char) (t : List Char) (h : (c == '_') = false) :
    dropU (c :: t) = c :: t := by
  simp [dropU, List.dropWhile_cons, h]

theorem dropWhile_head_shape (p : Char → Bool) (t : List Char) :
    t.dropWhile p = [] ∨ ∃ e r, t.dropWhile p = e :: r ∧ p e = false := by
  induction t with
  | nil => exact Or.inl rfl
  | cons c r ih =>
    cases hc : p c with
    | false => exact Or.inr ⟨c, r, by simp [List.dropWhile_cons, hc], hc⟩
    | true => simpa [List.dropWhile_cons, hc] using ih

theorem joinUnd_cons (x : List Char) (l : List (List Char)) (h : l ≠ []) :
    joinUnd (x :: l) = x ++ '_' :: joinUnd l := by
  cases l with
  | nil => exact absurd rfl h
  | cons y r => rfl

theorem joinUnd_ne_nil_of_head (r : List Char) (rs : List (List Char)) (h : r ≠ []) :
    joinUnd (r :: rs) ≠ [] := by
  cases rs with
  | nil => simpa [joinUnd] using h
  | cons y t => simp [joinUnd]

theorem joinUnd_append (l1 l2 : List (List Char)) (h1 : l1 ≠ []) (h2 : l2 ≠ []) :
    joinUnd (l1 ++ l2) = joinUnd l1 ++ '_' :: joinUnd l2 := by
  induction l1 with
  | nil => exact absurd rfl h1
  | cons x r ih =>
    cases r with
    | nil =>
      cases l2 with
      | nil => exact absurd rfl h2
      | cons y t => simp [joinUnd]
    | cons x2 r2 =>
      rw [List.cons_append, joinUnd_cons _ _ (by simp), joinUnd_cons _ _ (by simp),
        ih (by simp)]
      simp

theorem mem_joinUnd (l : List (List Char)) (c : Char) (hc : c ∈ joinUnd l) :
    c = '_' ∨ ∃ x ∈ l, c ∈ x := by
  induction l with
  | nil => simp [joinUnd] at hc
  | cons x r ih =>
    cases r with
    | nil =>
      refine Or.inr ⟨x, by simp, ?_⟩
      simpa [joinUnd] using hc
    | cons y t =>
      rw [joinUnd_cons _ _ (by simp)] at hc
      rcases List.mem_append.mp hc with h | h
      · exact Or.inr ⟨x, by simp, h⟩
      · rcases List.mem_cons.mp h with rfl | h2
        · exact Or.inl rfl
        · rcases ih h2 with h3 | ⟨x2, hx2, hcx⟩
          · exact Or.inl h3
          · exact Or.inr ⟨x2, by simp [hx2], hcx⟩

theorem collapse_nil : collapseNonAlnum [] = [] := by
  simp [collapseNonAlnum]

theorem alnumRuns_nil : alnumRuns [] = [] := by
  simp [alnumRuns]

theorem collapse_cons_alnum (c : Char) (t : List Char) (h : isAlnumAscii c = true) :
    collapseNonAlnum (c :: t) =
      (c :: t.takeWhile isAlnumAscii) ++ collapseNonAlnum (t.dropWhile isAlnumAscii) := by
  simp [collapseNonAlnum, h]

theorem collapse_cons_other (c : Char) (t : List Char) (h : isAlnumAscii c = false) :
    collapseNonAlnum (c :: t) =
      '_' :: collapseNonAlnum (t.dropWhile (fun d => !isAlnumAscii d)) := by
  simp [collapseNonAlnum, h]

theorem alnumRuns_cons_alnum (c : Char) (t : List Char) (h : isAlnumAscii c = true) :
    alnumRuns (c :: t) =
      (c :: t.takeWhile isAlnumAscii) :: alnumRuns (t.dropWhile isAlnumAscii) := by
  simp [alnumRuns, h]

theorem alnumRuns_cons_other (c : Char) (t : List Char) (h : isAlnumAscii c = false) :
    alnumRuns (c :: t) = alnumRuns (t.dropWhile (fun d => !isAlnumAscii d)) := by
  simp [alnumRuns, h]

theorem alnumRuns_ne_nil (p : List Char) : ∀ r ∈ alnumRuns p, r ≠ [] := by
  induction p using alnumRuns.induct with
  | case1 => intro r hr; simp [alnumRuns] at hr
  | case2 c t h ih =>
    intro r hr
    rw [alnumRuns_cons_alnum c t h] at hr
    rcases List.mem_cons.mp hr with rfl | hr2
    · simp
    · exact ih r hr2
  | case3 c t h ih =>
    intro r hr
    rw [alnumRuns_cons_other c t (by simpa using h)] at hr
    exact ih r hr

theorem alnumRuns_chars (p : List Char) :
    ∀ r ∈ alnumRuns p, ∀ c ∈ r, isAlnumAscii c = true := by
  induction p using alnumRuns.induct with
  | case1 => intro r hr; simp [alnumRuns] at hr
  | case2 c t h ih =>
    intro r hr x hx
    rw [alnumRuns_cons_alnum c t h] at hr
    rcases List.mem_cons.mp hr with rfl | hr2
    · rcases List.mem_cons.mp hx with rfl | hx2
      · exact h
      · exact List.mem_takeWhile_imp hx2
    · exact ih r hr2 x hx
  | case3 c t h ih =>
    intro r hr
    rw [alnumRuns_cons_other c t (by simpa using h)] at hr
    exact ih r hr

theorem alnumRuns_nil_iff (p : List Char) :
    alnumRuns p = [] ↔ ∀ c ∈ p, isAlnumAscii c = false := by
  induction p using alnumRuns.induct with
  | case1 => simp [alnumRuns]
  | case2 c t h ih =>
    rw [alnumRuns_cons_alnum c t h]
    constructor
    · intro hc; simp at hc
    · intro hall
      have := hall c (by simp)
      rw [h] at this
      exact Bool.noConfusion this
  | case3 c t h ih =>
    have hcf : isAlnumAscii c = false := by simpa using h
    rw [alnumRuns_cons_other c t hcf, ih]
    constructor
    · intro hs x hx
      rcases List.mem_cons.mp hx with rfl | hx2
      · exact hcf
      · have hsplit := List.takeWhile_append_dropWhile (fun d => !isAlnumAscii d) t
        rw [← hsplit] at hx2
        rcases List.mem_append.mp hx2 with h3 | h3
        · have := List.mem_takeWhile_imp h3
          simpa using this
        · exact hs x h3
    · intro hall x hx
      exact hall x (List.mem_cons_of_mem _ ((t.dropWhile_sublist _).mem hx))

theorem all_und_of_rdropU_nil (v : List Char) (h : rdropU v = []) :
    ∀ c ∈ v, (c == '_') = true := by
  intro c hc
  rw [rdropU, List.reverse_eq_nil_iff] at h
  exact List.dropWhile_eq_nil_iff.mp h c (List.mem_reverse.mpr hc)

theorem dropWhile_append_all (p : Char → Bool) (x y : List Char)
    (h : ∀ c ∈ x, p c = true) : (x ++ y).dropWhile p = y.dropWhile p := by
  induction x with
  | nil => simp
  | cons c t ih =>
    rw [List.cons_append, List.dropWhile_cons_of_pos (h c (by simp))]
    exact ih (fun d hd => h d (by simp [hd]))

theorem rdropU_append_all_und (u v : List Char) (hv : ∀ c ∈ v, (c == '_') = true) :
    rdropU (u ++ v) = rdropU u := by
  rw [rdropU, rdropU, List.reverse_append,
    dropWhile_append_all _ _ _ (fun c hc => hv c (List.mem_reverse.mp hc))]

theorem dropU_collapse_dropWhile (t : List Char) :
    dropU (collapseNonAlnum (t.dropWhile (fun d => !isAlnumAscii d))) =
      collapseNonAlnum (t.dropWhile (fun d => !isAlnumAscii d)) := by
  rcases dropWhile_head_shape (fun d => !isAlnumAscii d) t with hs | ⟨e, r, hs, he⟩
  · rw [hs, collapse_nil]; rfl
  · rw [hs]
    have he2 : isAlnumAscii e = true := by simpa using he
    rw [collapse_cons_alnum e r he2, List.cons_append]
    exact dropU_cons_of_head e _ (alnum_ne_und e he2)

/-- The cleaned form of one part equals its alphanumeric runs joined by
underscores. -/
theorem cleanPart_eq (p : List Char) : cleanPart p = joinUnd (alnumRuns p) := by
  induction p using alnumRuns.induct with
  | case1 =>
    rw [cleanPart, collapse_nil, alnumRuns_nil]
    rfl
  | case2 c t h ih =>
    have hrunchars : ∀ x ∈ c :: t.takeWhile isAlnumAscii, (x == '_') = false := by
      intro x hx
      rcases List.mem_cons.mp hx with rfl | hx2
      · exact alnum_ne_und x h
      · exact alnum_ne_und x (List.mem_takeWhile_imp hx2)
    have hdropU : dropU ((c :: t.takeWhile isAlnumAscii) ++
        collapseNonAlnum (t.dropWhile isAlnumAscii)) =
        (c :: t.takeWhile isAlnumAscii) ++ collapseNonAlnum (t.dropWhile isAlnumAscii) := by
      rw [List.cons_append]
      exact dropU_cons_of_head c _ (alnum_ne_und c h)
    rcases dropWhile_head_shape isAlnumAscii t with hrest | ⟨d, t2, hrest, hd⟩
    · rw [cleanPart, collapse_cons_alnum c t h, stripUnd, hdropU, hrest]
      rw [collapse_nil, List.append_nil,
        rdropU_all_keep _ hrunchars, alnumRuns_cons_alnum c t h, hrest, alnumRuns_nil]
      rfl
    · have hd2 : isAlnumAscii d = false := by simpa using hd
      have hcrest : collapseNonAlnum (t.dropWhile isAlnumAscii) =
          '_' :: collapseNonAlnum (t2.dropWhile (fun x => !isAlnumAscii x)) := by
        rw [hrest, collapse_cons_other d t2 hd2]
      have harest : alnumRuns (t.dropWhile isAlnumAscii) =
          alnumRuns (t2.dropWhile (fun x => !isAlnumAscii x)) := by
        rw [hrest, alnumRuns_cons_other d t2 hd2]
      have hclean_rest : cleanPart (t.dropWhile isAlnumAscii) =
          rdropU (collapseNonAlnum (t2.dropWhile (fun x => !isAlnumAscii x))) := by
        rw [cleanPart, hcrest, stripUnd]
        have : dropU ('_' :: collapseNonAlnum (t2.dropWhile (fun x => !isAlnumAscii x))) =
            dropU (collapseNonAlnum (t2.dropWhile (fun x => !isAlnumAscii x))) := by
          simp [dropU, List.dropWhile_cons]
        rw [this, dropU_collapse_dropWhile t2]
      rw [cleanPart, collapse_cons_alnum c t h, stripUnd, hdropU, hcrest,
        alnumRuns_cons_alnum c t h, harest]
      by_cases hx : rdropU (collapseNonAlnum (t2.dropWhile (fun x => !isAlnumAscii x))) = []
      · have hruns_nil : alnumRuns (t2.dropWhile (fun x => !isAlnumAscii x)) = [] := by
          by_contra hne
          cases hruns : alnumRuns (t2.dropWhile (fun x => !isAlnumAscii x)) with
          | nil => exact hne hruns
          | cons r rs =>
            have hr : r ≠ [] := alnumRuns_ne_nil _ r (by rw [hruns]; simp)
            have : cleanPart (t.dropWhile isAlnumAscii) ≠ [] := by
              rw [ih, harest, hruns]
              exact joinUnd_ne_nil_of_head r rs hr
            exact this (by rw [hclean_rest, hx])
        have hallund : ∀ x ∈ '_' :: collapseNonAlnum
            (t2.dropWhile (fun x => !isAlnumAscii x)), (x == '_') = true := by
          intro x hx2
          rcases List.mem_cons.mp hx2 with rfl | hx3
          · rfl
          · exact all_und_of_rdropU_nil _ hx x hx3
        rw [rdropU_append_all_und _ _ hallund, rdropU_all_keep _ hrunchars, hruns_nil]
        rfl
      · have hjoin_ne : joinUnd (alnumRuns (t2.dropWhile (fun x => !isAlnumAscii x))) ≠ [] := by
          rw [← harest, ← ih, hclean_rest]
          exact hx
        have hruns_ne : alnumRuns (t2.dropWhile (fun x => !isAlnumAscii x)) ≠ [] := by
          intro hc
          rw [hc] at hjoin_ne
          exact hjoin_ne rfl
        have hsplit : (c :: t.takeWhile isAlnumAscii) ++
            '_' :: collapseNonAlnum (t2.dropWhile (fun x => !isAlnumAscii x)) =
            ((c :: t.takeWhile isAlnumAscii) ++ ['_']) ++
              collapseNonAlnum (t2.dropWhile (fun x => !isAlnumAscii x)) := by
          simp
        rw [hsplit, rdropU_append _ _ hx, joinUnd_cons _ _ hruns_ne]
        have : rdropU (collapseNonAlnum (t2.dropWhile (fun x => !isAlnumAscii x))) =
            joinUnd (alnumRuns (t2.dropWhile (fun x => !isAlnumAscii x))) := by
          rw [← hclean_rest, ih, harest]
        rw [this]
        simp
  | case3 c t h ih =>
    have hcf : isAlnumAscii c = false := by simpa using h
    have hstep : cleanPart (c :: t) = cleanPart (t.dropWhile (fun d => !isAlnumAscii d)) := by
      rw [cleanPart, cleanPart, collapse_cons_other c t hcf, stripUnd, stripUnd]
      have : dropU ('_' :: collapseNonAlnum (t.dropWhile (fun d => !isAlnumAscii d))) =
          dropU (collapseNonAlnum (t.dropWhile (fun d => !isAlnumAscii d))) := by
        simp [dropU, List.dropWhile_cons]
      rw [this]
    rw [hstep, ih, alnumRuns_cons_other c t hcf]

theorem joinUnd_filter_flatten (xss : List (List (List Char)))
    (h : ∀ xs ∈ xss, ∀ r ∈ xs, r ≠ []) :
    ((xss.map joinUnd).filter (fun p => !p.isEmpty) = [] ↔ xss.flatten = []) ∧
    joinUnd ((xss.map joinUnd).filter (fun p => !p.isEmpty)) = joinUnd xss.flatten := by
  induction xss with
  | nil => exact ⟨by simp, rfl⟩
  | cons xs rest ih =>
    have hrest := ih (fun a ha => h a (List.mem_cons_of_mem _ ha))
    cases xs with
    | nil =>
      have h1 : List.map joinUnd (([] : List (List Char)) :: rest) =
          ([] : List Char) :: rest.map joinUnd := rfl
      have h2 : (([] : List Char) :: rest.map joinUnd).filter (fun p => !p.isEmpty) =
          (rest.map joinUnd).filter (fun p => !p.isEmpty) := by
        simp [List.filter_cons]
      rw [h1, h2, List.flatten_cons, List.nil_append]
      exact hrest
    | cons r rs =>
      have hr : r ≠ [] := h (r :: rs) (by simp) r (by simp)
      have hjoin_ne : joinUnd (r :: rs) ≠ [] := joinUnd_ne_nil_of_head r rs hr
      have hfil : ((List.map joinUnd ((r :: rs) :: rest)).filter (fun p => !p.isEmpty)) =
          joinUnd (r :: rs) :: ((rest.map joinUnd).filter (fun p => !p.isEmpty)) := by
        simp only [List.map_cons, List.filter_cons]
        rw [if_pos (by simpa using hjoin_ne)]
      rw [hfil, List.flatten_cons]
      constructor
      · constructor
        · intro hc; exact absurd hc (by simp)
        · intro hc
          exact absurd hc (by simp [hr])
      · by_cases hempty : (rest.map joinUnd).filter (fun p => !p.isEmpty) = []
        · have hfl : rest.flatten = [] := (hrest.1).mp hempty
          rw [hempty, hfl, List.append_nil]
          rfl
        · have hfl : rest.flatten ≠ [] := fun hc => hempty ((hrest.1).mpr hc)
          rw [joinUnd_cons _ _ hempty, hrest.2,
            joinUnd_append _ _ (by simp) hfl]

/-- C10: the filename sanitizer returns exactly the parts' alphanumeric
runs joined by underscores (or the fixed default "document" when no part
holds an alphanumeric character) followed by the ".pdf" suffix; the result
is never empty and holds only characters from `[A-Za-z0-9_.]`. -/
theorem sanitize_filename_spec (parts : List (List Char)) :
    sanitize_filename parts =
      (if (parts.map alnumRuns).flatten = [] then ("document".toList)
       else joinUnd (parts.map alnumRuns).flatten) ++ ".pdf".toList ∧
    sanitize_filename parts ≠ [] ∧
    (∀ c ∈ sanitize_filename parts, isAlnumAscii c = true ∨ c = '_' ∨ c = '.') ∧
    ((∀ p ∈ parts, ∀ c ∈ p, isAlnumAscii c = false) →
      sanitize_filename parts = "document.pdf".toList) := by
  have hmap : parts.map cleanPart = (parts.map alnumRuns).map joinUnd := by
    rw [List.map_map]
    exact List.map_congr_left (fun p _ => cleanPart_eq p)
  have hall : ∀ xs ∈ parts.map alnumRuns, ∀ r ∈ xs, r ≠ [] := by
    intro xs hxs r hr
    rcases List.mem_map.mp hxs with ⟨p, hp, rfl⟩
    exact alnumRuns_ne_nil p r hr
  have hjf := joinUnd_filter_flatten (parts.map alnumRuns) hall
  have heq1 : sanitize_filename parts =
      (if (parts.map alnumRuns).flatten = [] then ("document".toList)
       else joinUnd (parts.map alnumRuns).flatten) ++ ".pdf".toList := by
    rw [sanitize_filename]
    simp only [hmap]
    by_cases hc : ((parts.map alnumRuns).map joinUnd).filter (fun p => !p.isEmpty) = []
    · rw [if_pos hc, if_pos (hjf.1.mp hc)]
    · rw [if_neg hc, if_neg (fun hfl => hc (hjf.1.mpr hfl)), hjf.2]
  refine ⟨heq1, ?_, ?_, ?_⟩
  · rw [heq1]
    intro hc
    simp at hc
  · intro c hc
    rw [heq1] at hc
    rcases List.mem_append.mp hc with hmem | hmem
    · split at hmem
      · simp at hmem
        rcases hmem with rfl | rfl | rfl | rfl | rfl | rfl | rfl | rfl
        · exact Or.inl (by decide)
        · exact Or.inl (by decide)
        · exact Or.inl (by decide)
        · exact Or.inl (by decide)
        · exact Or.inl (by decide)
        · exact Or.inl (by decide)
        · exact Or.inl (by decide)
        · exact Or.inl (by decide)
      · rcases mem_joinUnd _ c hmem with rfl | ⟨x, hx, hcx⟩
        · exact Or.inr (Or.inl rfl)
        · rcases List.mem_flatten.mp hx with ⟨xs, hxs, hxxs⟩
          rcases List.mem_map.mp hxs with ⟨p, hp, rfl⟩
          exact Or.inl (alnumRuns_chars p x hxxs c hcx)
    · simp at hmem
      rcases hmem with rfl | rfl | rfl | rfl
      · exact Or.inr (Or.inr rfl)
      · exact Or.inl (by decide)
      · exact Or.inl (by decide)
      · exact Or.inl (by decide)
  · intro hnone
    have hfl : (parts.map alnumRuns).flatten = [] := by
      rw [List.flatten_eq_nil_iff]
      intro xs hxs
      rcases List.mem_map.mp hxs with ⟨p, hp, rfl⟩
      exact (alnumRuns_nil_iff p).mpr (hnone p hp)
    rw [heq1, if_pos hfl]
    rfl

/-- Witness for `sanitize_filename_spec`: parts with no alphanumeric
characters produce the fixed default name. -/
theorem sanitize_filename_spec_witness :
    sanitize_filename [("--".toList), ("".toList)] = "document.pdf".toList :=
  (sanitize_filename_spec [("--".toList), ("".toList)]).2.2.2 (by decide)

/-! ### Link extractor lemmas -/

/-- C8: an href whose normalized URL neither ends with ".pdf"
(case-insensitively) nor sits on a recognized cloud-storage host yields no
candidate and no error: the page's extraction result is the same as if the
anchor were absent, so the remaining anchors are processed unchanged. -/
theorem parse_skip_nonmatching (pre post : List Anchor) (a : Anchor)
    (page_url subject_code subject_label target_folder : List Char) (href : List Char)
    (ha : a.href = some href)
    (h1 : endsWithStr (lowerStr (normalize_pdf_url href page_url)) (".pdf".toList) = false)
    (h2 : netloc (normalize_pdf_url href page_url) ≠ "drive.google.com".toList)
    (h3 : netloc (normalize_pdf_url href page_url) ≠ "docs.google.com".toList) :
    parse_exam_links (pre ++ a :: post) page_url subject_code subject_label target_folder =
      parse_exam_links (pre ++ post) page_url subject_code subject_label target_folder := by
  have hstep : ∀ st, parseStep page_url subject_code subject_label target_folder st a = st := by
    intro st
    simp only [parseStep, ha]
    by_cases h0 : href = []
    · rw [if_pos h0]
    · rw [if_neg h0]
      by_cases hempty : normalize_pdf_url href page_url = []
      · rw [if_pos hempty]
      · rw [if_neg hempty, if_pos ⟨h1, h2, h3⟩]
  rw [parse_exam_links, parse_exam_links, List.foldl_append, List.foldl_cons, hstep,
    ← List.foldl_append]

/-- An anchor whose normalized URL is an HTML page, not a PDF nor a cloud
host. -/
def htmlAnchor : Anchor where
  href := some ("https://example.com/infos.html".toList)
  text := "Examen 2012 normale".toList

/-- An anchor carrying a direct PDF link. -/
def pdfAnchor : Anchor where
  href := some ("https://telmidtice.com/docs/sujet-2012.pdf".toList)
  text := "Sujet Examen 2012 normale".toList

set_option maxRecDepth 8000 in
/-- Witness for `parse_skip_nonmatching`: dropping the non-matching anchor
leaves the harvest of the remaining anchors unchanged. -/
theorem parse_skip_nonmatching_witness :
    parse_exam_links [htmlAnchor, pdfAnchor]
        ("https://telmidtice.com/2bac-pc-mathematiques-examens-nationaux/".toList)
        ("Math".toList) ("Mathématiques".toList) ("Math".toList) =
      parse_exam_links [pdfAnchor]
        ("https://telmidtice.com/2bac-pc-mathematiques-examens-nationaux/".toList)
        ("Math".toList) ("Mathématiques".toList) ("Math".toList) :=
  parse_skip_nonmatching [] [pdfAnchor] htmlAnchor
    ("https://telmidtice.com/2bac-pc-mathematiques-examens-nationaux/".toList)
    ("Math".toList) ("Mathématiques".toList) ("Math".toList)
    ("https://example.com/infos.html".toList) rfl (by decide) (by decide) (by decide)

end BacExams